import Mathlib

/-!
Shallow embedding of `flake8_html/plugin.py`: the severity classifier, the
per-file accumulator (`beginning` / `handle`), the report data built in
`finished`, output-filename construction (`get_report_filename`) and the
run-level index (`write_index`).  Python strings are modelled as `String`,
Python lists as `List`, Python `dict` / `defaultdict` / `Counter` as
insertion-ordered association lists, and the filesystem (for the artifact
lifecycle) as the list of paths that currently exist.
-/

namespace Flake8Html

/-- A flake8 error record as consumed by the plugin (fields accessed in the
source: `error.code`, `error.text`, `error.line_number`). -/
structure Error where
  code : String
  text : String
  line_number : Nat
deriving DecidableEq, Repr

/-- `SEVERITY_ORDER`: the ordered prefix rules; the first matching prefix
determines the severity. -/
def SEVERITY_ORDER : List (String × Nat) :=
  [("E9", 1), ("F", 1), ("E", 2), ("W", 2), ("C", 2), ("D", 3)]

/-- `DEFAULT_SEVERITY` from the source. -/
def DEFAULT_SEVERITY : Nat := 3

/-- `SEVERITY_NAMES` from the source. -/
def SEVERITY_NAMES : List String := ["high", "medium", "low"]

/-- Python `s.startswith(pre)`. -/
def startswith (s pre : String) : Bool :=
  pre.data.isPrefixOf s.data

/-- Python string `<=` (lexicographic comparison of code points), used on the
`code` and `text` strings by the tuple sort keys in `finished`. -/
def listLE : List Char → List Char → Bool
  | [], _ => true
  | _ :: _, [] => false
  | a :: as, b :: bs =>
    if a < b then true
    else if a = b then listLE as bs
    else false

/-- `find_severity`: return the severity of the first rule whose prefix
matches, else the default. -/
def find_severity (code : String) : Nat :=
  match SEVERITY_ORDER.find? (fun p => startswith code p.1) with
  | some p => p.2
  | none => DEFAULT_SEVERITY

/-- `os.sep` on the POSIX platform the plugin runs on. -/
def sep : Char := '/'

/-- `os.extsep`, the extension separator used by `splitext` and by
`get_report_filename`. -/
def extsep : Char := '.'

/-- Python `s.rfind(c)`: index of the last occurrence of `c`, `-1` if absent. -/
def rfind (s : String) (c : Char) : Int :=
  match s.data.reverse.findIdx? (fun x => x = c) with
  | some i => (s.length : Int) - 1 - i
  | none => -1

/-- `os.path.splitext` (POSIX `genericpath._splitext` with `sep='/'`,
`extsep='.'`): split off the extension at the last dot of the basename,
unless every character of the basename before that dot is itself a dot. -/
def splitext (p : String) : String × String :=
  let cs := p.data
  let sepIndex := rfind p sep
  let dotIndex := rfind p extsep
  if sepIndex < dotIndex then
    let base := (cs.drop (sepIndex + 1).toNat).take (dotIndex - sepIndex - 1).toNat
    if base.any (fun ch => ch ≠ extsep) then
      (⟨cs.take dotIndex.toNat⟩, ⟨cs.drop dotIndex.toNat⟩)
    else (p, "")
  else (p, "")

/-- Python `s.replace(a, b)` for single-character `a`, `b` (the source calls
`stem.replace(os.sep, '.')`). -/
def replaceChar (s : String) (a b : Char) : String :=
  ⟨s.data.map (fun ch => if ch = a then b else ch)⟩

/-- Python `s.strip(c)` for a single strip character (the source calls
`.strip('.')`). -/
def stripChar (s : String) (c : Char) : String :=
  ⟨((s.data.dropWhile (fun ch => ch = c)).reverse.dropWhile (fun ch => ch = c)).reverse⟩

/-- Python `s.endswith(suf)`. -/
def endswith (s suf : String) : Bool :=
  suf.data.isSuffixOf s.data

/-- `os.path.join` for two components (POSIX semantics). -/
def joinPath (a b : String) : String :=
  if startswith b "/" then b
  else if a = "" || endswith a "/" then a ++ b
  else a ++ "/" ++ b

/-- `os.path.basename`: everything after the last path separator. -/
def basename (p : String) : String :=
  ⟨p.data.drop (rfind p sep + 1).toNat⟩

/-- `HTMLPlugin.get_report_filename`: `stem, ext = splitext(filename)`;
`rfname = stem.replace(os.sep, '.').strip('.') + suffix + '.html'`;
`os.path.join(self.outdir, rfname)`. -/
def get_report_filename (outdir filename suffix : String) : String :=
  let stem := (splitext filename).1
  let rfname := stripChar (replaceChar stem sep extsep) extsep ++ suffix ++ ".html"
  joinPath outdir rfname

/-- `re.sub(r'^\./', '', filename)`: the anchored pattern matches at most
once, at position 0, so exactly one leading `./` is removed. -/
def subLeadingDotSlash (filename : String) : String :=
  if startswith filename "./" then ⟨filename.data.drop 2⟩ else filename

/-- One row of the run-level index (`IndexEntry` namedtuple in the source). -/
structure IndexEntry where
  filename : String
  report_name : String
  error_count : Nat
  highest_sev : Nat
deriving DecidableEq, Repr

/-- `defaultdict(list)` keyed dictionary as an insertion-ordered association
list; `d[k].append(v)` appends to an existing key's list or inserts the key
at the end. -/
def dictAppend {κ ν : Type} [DecidableEq κ] :
    List (κ × List ν) → κ → ν → List (κ × List ν)
  | [], k, v => [(k, [v])]
  | (k', vs) :: rest, k, v =>
    if k' = k then (k', vs ++ [v]) :: rest else (k', vs) :: dictAppend rest k v

/-- Dictionary lookup (`d[k]` / `k in d`) on the association-list model. -/
def dictGet {κ ν : Type} [DecidableEq κ] : List (κ × ν) → κ → Option ν
  | [], _ => none
  | (k', v) :: rest, k => if k' = k then some v else dictGet rest k

/-- `Counter` increment `c[k] += 1` on the association-list model. -/
def incCounter {κ : Type} [DecidableEq κ] : List (κ × Nat) → κ → List (κ × Nat)
  | [], k => [(k, 1)]
  | (k', v) :: rest, k =>
    if k' = k then (k', v + 1) :: rest else (k', v) :: incCounter rest k

/-- Python builtin `min` over a non-empty list of naturals: keep the current
best unless a strictly smaller value appears. -/
def pyMin : List Nat → Nat
  | [] => 0
  | x :: xs => xs.foldl (fun b n => if n < b then n else b) x

/-- `min(errors, key=attrgetter('line_number'))`: the first element with the
smallest `line_number` (Python `min` replaces the best only on a strict
decrease). -/
def minByLine : List Error → Error
  | [] => { code := "", text := "", line_number := 0 }
  | e :: es => es.foldl (fun b x => if x.line_number < b.line_number then x else b) e

/-- `len({e.text for e in errors})`: the number of distinct elements. -/
def uniqueCount (l : List String) : Nat :=
  l.dedup.length

/-- The per-file state mutated by `beginning` / `handle`: `self.errors` and
`self.by_code`. -/
structure FileState where
  errors : List (Error × Nat)
  by_code : List (String × List Error)
deriving DecidableEq, Repr

/-- `HTMLPlugin.beginning`: reset the per-file list of errors. -/
def beginning : FileState :=
  { errors := [], by_code := [] }

/-- `HTMLPlugin.handle`: record this error against the current file. -/
def handle (st : FileState) (error : Error) : FileState :=
  let sev := find_severity error.code
  { errors := st.errors ++ [(error, sev)],
    by_code := dictAppend st.by_code error.code error }

/-- The per-file state after `beginning` followed by one `handle` call per
error, in order. -/
def runFile (errs : List Error) : FileState :=
  errs.foldl handle beginning

/-- One entry of the per-file code index built in `finished` (the 7-tuple
`(sev, len(errors), code, e.text, e.line_number, unique_messages, errs)`). -/
structure CodeSummaryRow where
  sev : Nat
  count : Nat
  code : String
  text : String
  line_number : Nat
  unique_messages : Nat
  errs : List (Nat × String)
deriving DecidableEq, Repr

/-- Python tuple `<=` on `(line_number, text)` pairs, as used by
`sorted((e.line_number, e.text) for e in errors)`. -/
def pairLE (p q : Nat × String) : Bool :=
  decide (p.1 < q.1) || (decide (p.1 = q.1) && listLE p.2.data q.2.data)

/-- The loop body of the `for code, errors in self.by_code.items()` index
construction in `finished`. -/
def buildRow (code : String) (errors : List Error) : CodeSummaryRow :=
  let sev := find_severity code
  let e := minByLine errors
  let unique_messages := uniqueCount (errors.map (fun x => x.text))
  let errs := (errors.map (fun x => (x.line_number, x.text))).mergeSort pairLE
  { sev := sev, count := errors.length, code := code, text := e.text,
    line_number := e.line_number, unique_messages := unique_messages, errs := errs }

/-- The sort key comparison of `index.sort(key=lambda r: (r[0], -r[1], r[2]))`:
severity ascending, then count descending, then code ascending. -/
def rowLE (r s : CodeSummaryRow) : Bool :=
  decide (r.sev < s.sev) ||
    (decide (r.sev = s.sev) &&
      (decide (s.count < r.count) ||
        (decide (r.count = s.count) && listLE r.code.data s.code.data)))

/-- The per-file code index of `finished`: one row per `by_code` item, then
`index.sort(key=lambda r: (r[0], -r[1], r[2]))` (Python's stable sort). -/
def buildFileIndex (by_code : List (String × List Error)) : List CodeSummaryRow :=
  (by_code.map (fun kv => buildRow kv.1 kv.2)).mergeSort rowLE

/-- The `counts` Counter of `finished`: one increment per distinct code, at
that code's severity. -/
def buildCounts (by_code : List (String × List Error)) : List (Nat × Nat) :=
  by_code.foldl (fun m kv => incCounter m (find_severity kv.1)) []

/-- Python tuple `<=` on `(severity, count)` pairs, as used by
`sorted(counts.items())`. -/
def countLE (p q : Nat × Nat) : Bool :=
  decide (p.1 < q.1) || (decide (p.1 = q.1) && decide (p.2 ≤ q.2))

/-- `SEVERITY_NAMES[sev - 1]` (severities are 1-based). -/
def severityName (sev : Nat) : String :=
  SEVERITY_NAMES.getD (sev - 1) ""

/-- The `scores` progress strings of `finished`:
`'%s: %d' % (SEVERITY_NAMES[sev - 1], count)` for each severity of
`sorted(counts.items())`. -/
def buildScores (by_code : List (String × List Error)) : List String :=
  ((buildCounts by_code).mergeSort countLE).map
    (fun p => severityName p.1 ++ ": " ++ toString p.2)

/-- The `by_line` mapping of `finished`: group the arrival-order
`(error, severity)` pairs by `error.line_number`. -/
def buildByLine (errors : List (Error × Nat)) : List (Nat × List (Error × Nat)) :=
  errors.foldl (fun m es => dictAppend m es.1.line_number es) []

/-- The `line_sevs` table of `finished`:
`line_sevs[line] = min(e[1] for e in errs)` for each `by_line` item. -/
def buildLineSevs (by_line : List (Nat × List (Error × Nat))) : List (Nat × Nat) :=
  by_line.map (fun kv => (kv.1, pyMin (kv.2.map (fun es => es.2))))

/-- `os.unlink(f)` on the set-of-paths filesystem model. -/
def unlink (fs : List String) (f : String) : List String :=
  fs.filter (fun p => decide (p ≠ f))

/-- Writing file `f` on the set-of-paths filesystem model: afterwards the
path exists. -/
def writeFile (fs : List String) (f : String) : List String :=
  if f ∈ fs then fs else fs ++ [f]

/-- The observable outcome of one `HTMLPlugin.finished` call. -/
structure FinishedResult where
  files : List IndexEntry
  fs : List String
  opened : Option String
  displayed : Option String
  entry : Option IndexEntry
  index : List CodeSummaryRow
  scores : List String
  by_line : List (Nat × List (Error × Nat))
  line_sevs : List (Nat × Nat)
deriving DecidableEq, Repr

/-- `HTMLPlugin.finished`: write the HTML reports for `filename` (or delete
stale ones), given the accumulated per-file state `st`, the run-level index
list `files` and the filesystem contents `fs`. -/
def finished (outdir : String) (st : FileState) (files : List IndexEntry)
    (fs : List String) (filename : String) : FinishedResult :=
  let report_filename := get_report_filename outdir filename ".report"
  let source_filename := get_report_filename outdir filename ".source"
  if st.errors.isEmpty then
    -- if the files exist, they are out of date; remove them
    let fs := [report_filename, source_filename].foldl
      (fun acc f => if f ∈ acc then unlink acc f else acc) fs
    { files := files, fs := fs, opened := none, displayed := none,
      entry := none, index := [], scores := [], by_line := [], line_sevs := [] }
  else
    -- open(filename, 'rb') happens before the leading ./ is stripped
    let opened := filename
    let displayed := subLeadingDotSlash filename
    let highest_sev := pyMin (st.errors.map (fun es => es.2))
    let entry : IndexEntry :=
      { filename := displayed, report_name := basename report_filename,
        error_count := st.errors.length, highest_sev := highest_sev }
    let files := files ++ [entry]
    let index := buildFileIndex st.by_code
    let scores := buildScores st.by_code
    let by_line := buildByLine st.errors
    let line_sevs := buildLineSevs by_line
    let fs := writeFile (writeFile fs report_filename) source_filename
    { files := files, fs := fs, opened := some opened, displayed := some displayed,
      entry := some entry, index := index, scores := scores,
      by_line := by_line, line_sevs := line_sevs }

/-- The sort key comparison of
`sorted(self.files, key=lambda e: (e.highest_sev, -e.error_count))`. -/
def idxLE (d e : IndexEntry) : Bool :=
  decide (d.highest_sev < e.highest_sev) ||
    (decide (d.highest_sev = e.highest_sev) && decide (e.error_count ≤ d.error_count))

/-- `HTMLPlugin.write_index`: the sorted run-level index and the overall
`highest_sev` (`min` over entries, or the sentinel `4` when no file had
errors). -/
def write_index (files : List IndexEntry) : List IndexEntry × Nat :=
  let highest_sev :=
    if files.isEmpty then 4 else pyMin (files.map (fun e => e.highest_sev))
  (files.mergeSort idxLE, highest_sev)

/-- Specification-side view: the occurrences of code `c` in a file's error
list, in input order. -/
def codeOccurrences (errs : List Error) (c : String) : List Error :=
  errs.filter (fun e => decide (e.code = c))

/-- Specification-side view: the classified `(error, severity)` pairs
recorded on a given line, in arrival order. -/
def lineOccurrences (errs : List Error) (line : Nat) : List (Error × Nat) :=
  (errs.map (fun e => (e, find_severity e.code))).filter
    (fun es => decide (es.1.line_number = line))

theorem find_severity_total (code : String) :
    find_severity code = 1 ∨ find_severity code = 2 ∨ find_severity code = 3 := by
  unfold find_severity SEVERITY_ORDER
  cases h1 : startswith code "E9" <;>
    cases h2 : startswith code "F" <;>
      cases h3 : startswith code "E" <;>
        cases h4 : startswith code "W" <;>
          cases h5 : startswith code "C" <;>
            cases h6 : startswith code "D" <;>
              simp [List.find?, h1, h2, h3, h4, h5, h6, DEFAULT_SEVERITY]

theorem dictGet_dictAppend {κ ν : Type} [DecidableEq κ]
    (m : List (κ × List ν)) (k : κ) (v : ν) (k' : κ) :
    dictGet (dictAppend m k v) k' =
      if k' = k then some ((dictGet m k).getD [] ++ [v]) else dictGet m k' := by
  induction m with
  | nil =>
    by_cases h : k' = k
    · subst h; simp [dictAppend, dictGet]
    · simp [dictAppend, dictGet, h, Ne.symm h]
  | cons a rest ih =>
    obtain ⟨k₀, vs⟩ := a
    by_cases h1 : k₀ = k
    · subst h1
      by_cases h2 : k' = k₀
      · subst h2; simp [dictAppend, dictGet]
      · simp [dictAppend, dictGet, h2, Ne.symm h2]
    · by_cases h3 : k₀ = k'
      · subst h3
        simp [dictAppend, dictGet, h1, Ne.symm h1, ih]
      · simp [dictAppend, dictGet, h1, h3, ih]

theorem dictGet_foldAppend_getD {β κ ν : Type} [DecidableEq κ]
    (keyf : β → κ) (valf : β → ν) (l : List β) :
    ∀ (m : List (κ × List ν)) (k : κ),
      (dictGet (l.foldl (fun m x => dictAppend m (keyf x) (valf x)) m) k).getD [] =
        (dictGet m k).getD [] ++ (l.filter (fun x => decide (keyf x = k))).map valf := by
  induction l with
  | nil => simp
  | cons x xs ih =>
    intro m k
    simp only [List.foldl_cons, List.filter_cons]
    rw [ih]
    by_cases h : keyf x = k
    · simp [dictGet_dictAppend, h]
    · simp [dictGet_dictAppend, h, Ne.symm h]

theorem dictGet_foldAppend_isSome {β κ ν : Type} [DecidableEq κ]
    (keyf : β → κ) (valf : β → ν) (l : List β) :
    ∀ (m : List (κ × List ν)) (k : κ),
      (dictGet (l.foldl (fun m x => dictAppend m (keyf x) (valf x)) m) k).isSome =
        ((dictGet m k).isSome || l.any (fun x => decide (keyf x = k))) := by
  induction l with
  | nil => simp
  | cons x xs ih =>
    intro m k
    simp only [List.foldl_cons, List.any_cons]
    rw [ih]
    by_cases h : keyf x = k
    · simp [dictGet_dictAppend, h]
    · simp [dictGet_dictAppend, h, Ne.symm h]

theorem dictGet_foldAppend_id {β κ : Type} [DecidableEq κ]
    (keyf : β → κ) (l : List β) (k : κ) :
    dictGet (l.foldl (fun m x => dictAppend m (keyf x) x) []) k =
      if (l.filter (fun x => decide (keyf x = k))).isEmpty then none
      else some (l.filter (fun x => decide (keyf x = k))) := by
  have hg := dictGet_foldAppend_getD keyf (fun x => x) l [] k
  have hs := dictGet_foldAppend_isSome keyf (fun x => x) l [] k
  simp only [dictGet, Option.getD_none, List.nil_append, List.map_id',
    Option.isSome_none, Bool.false_or] at hg hs
  rcases hdg : dictGet (l.foldl (fun m x => dictAppend m (keyf x) x) []) k with _ | w
  · rw [hdg] at hs
    simp only [Option.isSome_none] at hs
    have hfil : l.filter (fun x => decide (keyf x = k)) = [] := by
      rw [List.filter_eq_nil_iff]
      intro a ha hpa
      have hany : l.any (fun x => decide (keyf x = k)) = true :=
        List.any_eq_true.mpr ⟨a, ha, by simpa using hpa⟩
      rw [hany] at hs
      exact Bool.false_ne_true hs
    simp [hfil]
  · rw [hdg] at hg hs
    simp only [Option.isSome_some, Option.getD_some] at hg hs
    have hany : l.any (fun x => decide (keyf x = k)) = true := hs.symm
    obtain ⟨a, ha, hpa⟩ := List.any_eq_true.mp hany
    have hmem : a ∈ l.filter (fun x => decide (keyf x = k)) :=
      List.mem_filter.mpr ⟨ha, hpa⟩
    have hemp : (l.filter (fun x => decide (keyf x = k))).isEmpty = false := by
      cases hfe : (l.filter (fun x => decide (keyf x = k))) with
      | nil => rw [hfe] at hmem; exact absurd hmem (List.not_mem_nil a)
      | cons b bs => simp
    rw [hemp, hg]
    simp

theorem foldl_handle_errors (errs : List Error) :
    ∀ st : FileState, (errs.foldl handle st).errors =
      st.errors ++ errs.map (fun e => (e, find_severity e.code)) := by
  induction errs with
  | nil => simp
  | cons e es ih =>
    intro st
    simp only [List.foldl_cons, List.map_cons]
    rw [ih]
    simp [handle]

theorem runFile_errors (errs : List Error) :
    (runFile errs).errors = errs.map (fun e => (e, find_severity e.code)) := by
  rw [runFile, foldl_handle_errors]
  simp [beginning]

theorem foldl_handle_by_code (errs : List Error) :
    ∀ st : FileState, (errs.foldl handle st).by_code =
      errs.foldl (fun m e => dictAppend m e.code e) st.by_code := by
  induction errs with
  | nil => simp
  | cons e es ih =>
    intro st
    simp only [List.foldl_cons]
    rw [ih]
    simp [handle]

theorem runFile_by_code (errs : List Error) :
    (runFile errs).by_code = errs.foldl (fun m e => dictAppend m e.code e) [] := by
  rw [runFile, foldl_handle_by_code]
  simp [beginning]

/-- The `by_code` dictionary of a file run maps each code to exactly the
arrival-ordered occurrences of that code. -/
theorem by_code_spec (errs : List Error) (c : String) :
    dictGet (runFile errs).by_code c =
      if (errs.filter (fun e => decide (e.code = c))).isEmpty then none
      else some (errs.filter (fun e => decide (e.code = c))) := by
  rw [runFile_by_code]
  exact dictGet_foldAppend_id (fun e => e.code) errs c

/-- The `by_line` dictionary maps each line to exactly the arrival-ordered
`(error, severity)` pairs on that line. -/
theorem by_line_spec (errors : List (Error × Nat)) (line : Nat) :
    dictGet (buildByLine errors) line =
      if (errors.filter (fun es => decide (es.1.line_number = line))).isEmpty then none
      else some (errors.filter (fun es => decide (es.1.line_number = line))) := by
  rw [buildByLine]
  exact dictGet_foldAppend_id (fun es => es.1.line_number) errors line

theorem keys_dictAppend {κ ν : Type} [DecidableEq κ]
    (m : List (κ × List ν)) (k : κ) (v : ν) :
    (dictAppend m k v).map Prod.fst =
      if k ∈ m.map Prod.fst then m.map Prod.fst else m.map Prod.fst ++ [k] := by
  induction m with
  | nil => simp [dictAppend]
  | cons a rest ih =>
    obtain ⟨k₀, vs⟩ := a
    by_cases h : k₀ = k
    · subst h; simp [dictAppend]
    · simp only [dictAppend, if_neg h, List.map_cons, List.mem_cons]
      rw [ih]
      by_cases hm : k ∈ rest.map Prod.fst
      · simp [hm, Ne.symm h]
      · simp [hm, Ne.symm h]

theorem nodup_keys_dictAppend {κ ν : Type} [DecidableEq κ]
    {m : List (κ × List ν)} (h : (m.map Prod.fst).Nodup) (k : κ) (v : ν) :
    ((dictAppend m k v).map Prod.fst).Nodup := by
  rw [keys_dictAppend]
  by_cases hm : k ∈ m.map Prod.fst
  · simpa [hm] using h
  · rw [if_neg hm]
    rw [List.nodup_append]
    exact ⟨h, List.nodup_singleton k, by simpa using hm⟩

theorem nodup_keys_foldAppend {β κ : Type} [DecidableEq κ]
    (keyf : β → κ) (l : List β) :
    ∀ m : List (κ × List β), (m.map Prod.fst).Nodup →
      (((l.foldl (fun m x => dictAppend m (keyf x) x) m)).map Prod.fst).Nodup := by
  induction l with
  | nil => intro m h; simpa using h
  | cons x xs ih =>
    intro m h
    exact ih _ (nodup_keys_dictAppend h (keyf x) x)

theorem nodup_keys_runFile_by_code (errs : List Error) :
    ((runFile errs).by_code.map Prod.fst).Nodup := by
  rw [runFile_by_code]
  exact nodup_keys_foldAppend (fun e => e.code) errs [] (by simp)

theorem dictGet_eq_some_of_mem {κ ν : Type} [DecidableEq κ]
    {m : List (κ × ν)} (h : (m.map Prod.fst).Nodup) {k : κ} {v : ν}
    (hm : (k, v) ∈ m) : dictGet m k = some v := by
  induction m with
  | nil => exact absurd hm (List.not_mem_nil _)
  | cons a rest ih =>
    obtain ⟨k₀, v₀⟩ := a
    simp only [List.map_cons, List.nodup_cons] at h
    rcases List.mem_cons.mp hm with heq | htl
    · injection heq with h1 h2
      subst h1; subst h2
      simp [dictGet]
    · have hk : ¬ k₀ = k := by
        intro hkk
        subst hkk
        exact h.1 (List.mem_map.mpr ⟨(k₀, v), htl, rfl⟩)
      simp only [dictGet, if_neg hk]
      exact ih h.2 htl

theorem listLE_trans : ∀ as bs cs : List Char,
    listLE as bs → listLE bs cs → listLE as cs := by
  intro as
  induction as with
  | nil => intro bs cs h1 h2; rfl
  | cons a as ih =>
    intro bs cs h1 h2
    cases bs with
    | nil => simp [listLE] at h1
    | cons b bs =>
      cases cs with
      | nil => simp [listLE] at h2
      | cons c cs =>
        simp only [listLE] at h1 h2 ⊢
        rcases lt_trichotomy a b with hab | hab | hab
        · rcases lt_trichotomy b c with hbc | hbc | hbc
          · rw [if_pos (lt_trans hab hbc)]
          · subst hbc; rw [if_pos hab]
          · rw [if_pos hab] at h1
            rw [if_neg (lt_asymm hbc), if_neg (ne_of_gt hbc)] at h2
            exact absurd h2 (by simp)
        · subst hab
          rw [if_neg (lt_irrefl a), if_pos rfl] at h1
          rcases lt_trichotomy a c with hac | hac | hac
          · rw [if_pos hac]
          · subst hac
            rw [if_neg (lt_irrefl a), if_pos rfl] at h2 ⊢
            exact ih bs cs h1 h2
          · rw [if_neg (lt_asymm hac), if_neg (ne_of_gt hac)] at h2
            exact absurd h2 (by simp)
        · rw [if_neg (lt_asymm hab), if_neg (ne_of_gt hab)] at h1
          exact absurd h1 (by simp)

theorem listLE_total : ∀ as bs : List Char, listLE as bs || listLE bs as := by
  intro as
  induction as with
  | nil => intro bs; simp [listLE]
  | cons a as ih =>
    intro bs
    cases bs with
    | nil => simp [listLE]
    | cons b bs =>
      simp only [listLE]
      rcases lt_trichotomy a b with hab | hab | hab
      · rw [if_pos hab]; simp
      · subst hab
        rw [if_neg (lt_irrefl a), if_pos rfl, if_neg (lt_irrefl a), if_pos rfl]
        exact ih bs
      · rw [if_neg (lt_asymm hab), if_neg (ne_of_gt hab), if_pos hab]
        simp

theorem pairLE_trans : ∀ a b c : Nat × String,
    pairLE a b → pairLE b c → pairLE a c := by
  intro a b c hab hbc
  simp only [pairLE, Bool.or_eq_true, Bool.and_eq_true, decide_eq_true_eq] at *
  rcases hab with h | ⟨h1, h2⟩ <;> rcases hbc with h' | ⟨h1', h2'⟩
  · left; omega
  · left; omega
  · left; omega
  · right; exact ⟨by omega, listLE_trans _ _ _ h2 h2'⟩

theorem pairLE_total : ∀ a b : Nat × String, pairLE a b || pairLE b a := by
  intro a b
  simp only [pairLE, Bool.or_eq_true, Bool.and_eq_true, decide_eq_true_eq]
  rcases Nat.lt_trichotomy a.1 b.1 with h | h | h
  · left; left; exact h
  · rcases Bool.or_eq_true _ _ |>.mp (listLE_total a.2.data b.2.data) with h2 | h2
    · left; right; exact ⟨h, h2⟩
    · right; right; exact ⟨h.symm, h2⟩
  · right; left; exact h

theorem rowLE_trans : ∀ a b c : CodeSummaryRow,
    rowLE a b → rowLE b c → rowLE a c := by
  intro a b c hab hbc
  simp only [rowLE, Bool.or_eq_true, Bool.and_eq_true, decide_eq_true_eq] at *
  rcases hab with h | ⟨h1, h2 | ⟨h2, h3⟩⟩ <;>
    rcases hbc with h' | ⟨h1', h2' | ⟨h2', h3'⟩⟩
  · left; omega
  · left; omega
  · left; omega
  · left; omega
  · right; exact ⟨by omega, Or.inl (by omega)⟩
  · right; exact ⟨by omega, Or.inl (by omega)⟩
  · left; omega
  · right; exact ⟨by omega, Or.inl (by omega)⟩
  · right; exact ⟨by omega, Or.inr ⟨by omega, listLE_trans _ _ _ h3 h3'⟩⟩

theorem rowLE_total : ∀ a b : CodeSummaryRow, rowLE a b || rowLE b a := by
  intro a b
  simp only [rowLE, Bool.or_eq_true, Bool.and_eq_true, decide_eq_true_eq]
  rcases Nat.lt_trichotomy a.sev b.sev with h | h | h
  · left; left; exact h
  · rcases Nat.lt_trichotomy a.count b.count with hc | hc | hc
    · right; right; exact ⟨h.symm, Or.inl hc⟩
    · rcases Bool.or_eq_true _ _ |>.mp (listLE_total a.code.data b.code.data) with h2 | h2
      · left; right; exact ⟨h, Or.inr ⟨hc, h2⟩⟩
      · right; right; exact ⟨h.symm, Or.inr ⟨hc.symm, h2⟩⟩
    · left; right; exact ⟨h, Or.inl hc⟩
  · right; left; exact h

theorem countLE_trans : ∀ a b c : Nat × Nat,
    countLE a b → countLE b c → countLE a c := by
  intro a b c hab hbc
  simp only [countLE, Bool.or_eq_true, Bool.and_eq_true, decide_eq_true_eq] at *
  omega

theorem countLE_total : ∀ a b : Nat × Nat, countLE a b || countLE b a := by
  intro a b
  simp only [countLE, Bool.or_eq_true, Bool.and_eq_true, decide_eq_true_eq]
  omega

theorem idxLE_trans : ∀ a b c : IndexEntry,
    idxLE a b → idxLE b c → idxLE a c := by
  intro a b c hab hbc
  simp only [idxLE, Bool.or_eq_true, Bool.and_eq_true, decide_eq_true_eq] at *
  omega

theorem idxLE_total : ∀ a b : IndexEntry, idxLE a b || idxLE b a := by
  intro a b
  simp only [idxLE, Bool.or_eq_true, Bool.and_eq_true, decide_eq_true_eq]
  omega

theorem foldlMin_le_init (l : List Nat) :
    ∀ b : Nat, l.foldl (fun b n => if n < b then n else b) b ≤ b := by
  induction l with
  | nil => intro b; simp
  | cons x xs ih =>
    intro b
    simp only [List.foldl_cons]
    refine le_trans (ih _) ?_
    by_cases h : x < b
    · simp [h]; omega
    · simp [h]

theorem foldlMin_le_mem (l : List Nat) :
    ∀ b : Nat, ∀ x ∈ l, l.foldl (fun b n => if n < b then n else b) b ≤ x := by
  induction l with
  | nil => intro b x hx; exact absurd hx (List.not_mem_nil x)
  | cons y ys ih =>
    intro b x hx
    simp only [List.foldl_cons]
    rcases List.mem_cons.mp hx with rfl | hmem
    · refine le_trans (foldlMin_le_init ys _) ?_
      by_cases h : x < b
      · simp [h]
      · simp [h]; omega
    · exact ih _ x hmem

theorem foldlMin_mem (l : List Nat) :
    ∀ b : Nat, l.foldl (fun b n => if n < b then n else b) b = b ∨
      l.foldl (fun b n => if n < b then n else b) b ∈ l := by
  induction l with
  | nil => intro b; left; rfl
  | cons x xs ih =>
    intro b
    simp only [List.foldl_cons]
    rcases ih (if x < b then x else b) with heq | hmem
    · rw [heq]
      by_cases h : x < b
      · right; simp [h]
      · left; simp [h]
    · right; exact List.mem_cons_of_mem x hmem

theorem pyMin_le {l : List Nat} (h : l ≠ []) : ∀ x ∈ l, pyMin l ≤ x := by
  match l with
  | [] => exact absurd rfl h
  | y :: ys =>
    intro x hx
    rcases List.mem_cons.mp hx with rfl | hmem
    · exact foldlMin_le_init ys x
    · exact foldlMin_le_mem ys y x hmem

theorem pyMin_mem {l : List Nat} (h : l ≠ []) : pyMin l ∈ l := by
  match l with
  | [] => exact absurd rfl h
  | y :: ys =>
    rcases foldlMin_mem ys y with heq | hmem
    · rw [pyMin, heq]; exact List.mem_cons_self y ys
    · exact List.mem_cons_of_mem y hmem

theorem foldlMB_le_init (es : List Error) :
    ∀ b : Error,
      (es.foldl (fun b x => if x.line_number < b.line_number then x else b) b).line_number ≤
        b.line_number := by
  induction es with
  | nil => intro b; simp
  | cons x xs ih =>
    intro b
    simp only [List.foldl_cons]
    refine le_trans (ih _) ?_
    by_cases h : x.line_number < b.line_number
    · rw [if_pos h]; omega
    · rw [if_neg h]

theorem foldlMB_le_mem (es : List Error) :
    ∀ b : Error, ∀ x ∈ es,
      (es.foldl (fun b x => if x.line_number < b.line_number then x else b) b).line_number ≤
        x.line_number := by
  induction es with
  | nil => intro b x hx; exact absurd hx (List.not_mem_nil x)
  | cons y ys ih =>
    intro b x hx
    simp only [List.foldl_cons]
    rcases List.mem_cons.mp hx with rfl | hmem
    · refine le_trans (foldlMB_le_init ys _) ?_
      by_cases h : x.line_number < b.line_number
      · rw [if_pos h]
      · rw [if_neg h]; omega
    · exact ih _ x hmem

/-- Python `min(errors, key=attrgetter('line_number'))` returns the first
element attaining the minimal line number: searching the list for the
computed minimal line number finds exactly that element. -/
theorem foldlMB_find (es : List Error) :
    ∀ b : Error,
      (b :: es).find?
          (fun x => decide (x.line_number =
            (es.foldl (fun b x => if x.line_number < b.line_number then x else b)
              b).line_number)) =
        some (es.foldl (fun b x => if x.line_number < b.line_number then x else b) b) := by
  induction es with
  | nil =>
    intro b
    simp [List.find?]
  | cons x xs ih =>
    intro b
    simp only [List.foldl_cons]
    by_cases hx : x.line_number < b.line_number
    · simp only [if_pos hx]
      have hmx := foldlMB_le_init xs x
      have hpb : (decide (b.line_number =
          (xs.foldl (fun b x => if x.line_number < b.line_number then x else b)
            x).line_number)) = false := by
        rw [decide_eq_false_iff_not]
        omega
      rw [List.find?_cons_of_neg _ (by simp [hpb])]
      exact ih x
    · simp only [if_neg hx]
      have hmb := foldlMB_le_init xs b
      by_cases hb : b.line_number =
          (xs.foldl (fun b x => if x.line_number < b.line_number then x else b)
            b).line_number
      · have hpb : (decide (b.line_number =
            (xs.foldl (fun b x => if x.line_number < b.line_number then x else b)
              b).line_number)) = true := by
          rw [decide_eq_true_eq]; exact hb
        have hib := ih b
        rw [List.find?_cons_of_pos _ (by simp [hpb])] at hib
        injection hib with hbm
        rw [List.find?_cons_of_pos _ (by simp [hpb])]
        exact congrArg some hbm
      · have hpb : (decide (b.line_number =
            (xs.foldl (fun b x => if x.line_number < b.line_number then x else b)
              b).line_number)) = false := by
          rw [decide_eq_false_iff_not]; exact hb
        have hpx : (decide (x.line_number =
            (xs.foldl (fun b x => if x.line_number < b.line_number then x else b)
              b).line_number)) = false := by
          rw [decide_eq_false_iff_not]
          omega
        have hib := ih b
        rw [List.find?_cons_of_neg _ (by simp [hpb])] at hib
        rw [List.find?_cons_of_neg _ (by simp [hpb]),
          List.find?_cons_of_neg _ (by simp [hpx])]
        exact hib

/-- `minByLine` of a non-empty group is its first minimal-line element. -/
theorem minByLine_find {g : List Error} (h : g ≠ []) :
    g.find? (fun x => decide (x.line_number = (minByLine g).line_number)) =
      some (minByLine g) := by
  match g with
  | [] => exact absurd rfl h
  | e :: es =>
    show (e :: es).find? _ = _
    simpa [minByLine] using foldlMB_find es e

theorem minByLine_le {g : List Error} (h : g ≠ []) :
    ∀ x ∈ g, (minByLine g).line_number ≤ x.line_number := by
  match g with
  | [] => exact absurd rfl h
  | e :: es =>
    intro x hx
    rcases List.mem_cons.mp hx with rfl | hmem
    · simpa [minByLine] using foldlMB_le_init es x
    · simpa [minByLine] using foldlMB_le_mem es e x hmem

theorem mem_of_dictGet_eq_some {κ ν : Type} [DecidableEq κ]
    {m : List (κ × ν)} {k : κ} {v : ν}
    (h : dictGet m k = some v) : (k, v) ∈ m := by
  induction m with
  | nil => simp [dictGet] at h
  | cons a rest ih =>
    obtain ⟨k₀, v₀⟩ := a
    by_cases hk : k₀ = k
    · subst hk
      simp only [dictGet, if_true, eq_self_iff_true, Option.some.injEq] at h
      subst h
      exact List.mem_cons_self _ _
    · simp only [dictGet, if_neg hk] at h
      exact List.mem_cons_of_mem _ (ih h)

theorem dictGet_map_value {κ ν μ : Type} [DecidableEq κ]
    (f : ν → μ) (m : List (κ × ν)) (k : κ) :
    dictGet (m.map (fun kv => (kv.1, f kv.2))) k = (dictGet m k).map f := by
  induction m with
  | nil => rfl
  | cons a rest ih =>
    obtain ⟨k₀, v₀⟩ := a
    by_cases h : k₀ = k
    · subst h; simp [dictGet]
    · simp [dictGet, h, ih]

theorem unlinkStep_eq_filter (fs : List String) (f : String) :
    (if f ∈ fs then unlink fs f else fs) = fs.filter (fun p => decide (p ≠ f)) := by
  by_cases h : f ∈ fs
  · rw [if_pos h]; rfl
  · rw [if_neg h]
    exact (List.filter_eq_self.mpr (fun a ha => by
      rw [decide_eq_true_eq]; rintro rfl; exact h ha)).symm

theorem errors_isEmpty_false {st : FileState} (h : st.errors ≠ []) :
    st.errors.isEmpty = false := by
  cases herr : st.errors with
  | nil => exact absurd herr h
  | cons x xs => rfl

/-- Unfolding of the clean-file branch of `finished`. -/
theorem finished_clean (outdir fn : String) (st : FileState)
    (files : List IndexEntry) (fs : List String) (h : st.errors = []) :
    finished outdir st files fs fn =
      { files := files,
        fs := (fs.filter (fun p =>
            decide (p ≠ get_report_filename outdir fn ".report"))).filter (fun p =>
            decide (p ≠ get_report_filename outdir fn ".source")),
        opened := none, displayed := none, entry := none,
        index := [], scores := [], by_line := [], line_sevs := [] } := by
  have hemp : st.errors.isEmpty = true := by rw [h]; rfl
  simp only [finished, hemp, if_true, List.foldl_cons, List.foldl_nil]
  rw [unlinkStep_eq_filter fs (get_report_filename outdir fn ".report"),
    unlinkStep_eq_filter _ (get_report_filename outdir fn ".source")]

/-- Unfolding of the dirty-file branch of `finished`. -/
theorem finished_dirty (outdir fn : String) (st : FileState)
    (files : List IndexEntry) (fs : List String) (h : st.errors ≠ []) :
    finished outdir st files fs fn =
      { files := files ++ [⟨subLeadingDotSlash fn,
          basename (get_report_filename outdir fn ".report"),
          st.errors.length, pyMin (st.errors.map (fun es => es.2))⟩],
        fs := writeFile (writeFile fs (get_report_filename outdir fn ".report"))
          (get_report_filename outdir fn ".source"),
        opened := some fn,
        displayed := some (subLeadingDotSlash fn),
        entry := some ⟨subLeadingDotSlash fn,
          basename (get_report_filename outdir fn ".report"),
          st.errors.length, pyMin (st.errors.map (fun es => es.2))⟩,
        index := buildFileIndex st.by_code,
        scores := buildScores st.by_code,
        by_line := buildByLine st.errors,
        line_sevs := buildLineSevs (buildByLine st.errors) } := by
  have hemp : st.errors.isEmpty = false := errors_isEmpty_false h
  simp only [finished, hemp, Bool.false_eq_true, if_false]

/-- C1: the severity classifier `find_severity` is total and deterministic:
every input string yields a value in {1,2,3}, equal calls yield equal
results, and on the concrete codes: "E999" and "F401" give severity 1;
"E501", "W605" and "C901" give severity 2; "D100" gives severity 3; "Q000"
(no matching prefix) gives the default severity 3. -/
theorem C1_find_severity_total_deterministic :
    (∀ code : String,
      find_severity code = 1 ∨ find_severity code = 2 ∨ find_severity code = 3) ∧
    (∀ code : String, find_severity code = find_severity code) ∧
    find_severity "E999" = 1 ∧ find_severity "F401" = 1 ∧
    find_severity "E501" = 2 ∧ find_severity "W605" = 2 ∧ find_severity "C901" = 2 ∧
    find_severity "D100" = 3 ∧ find_severity "Q000" = 3 :=
  ⟨find_severity_total, fun _ => rfl, by decide, by decide, by decide,
    by decide, by decide, by decide, by decide⟩

/-- C8 counterexample: the output-filename mapping is not injective on the
two distinct source paths "pkg/mod.py" and "pkg.mod.py": `get_report_filename`
sends both to the same output filename. -/
theorem C8_counterexample :
    ("pkg/mod.py" : String) ≠ "pkg.mod.py" ∧
    get_report_filename "out" "pkg/mod.py" ".report" =
      get_report_filename "out" "pkg.mod.py" ".report" := by
  decide

/-- C8 amended: the mapping from source path to output report filename is
not injective: the distinct source paths "pkg/mod.py" and "pkg.mod.py" are
both mapped to "out/pkg.mod.report.html" (and likewise collide for the
".source" artifact). -/
theorem C8_collision :
    get_report_filename "out" "pkg/mod.py" ".report" = "out/pkg.mod.report.html" ∧
    get_report_filename "out" "pkg.mod.py" ".report" = "out/pkg.mod.report.html" ∧
    get_report_filename "out" "pkg/mod.py" ".source" =
      get_report_filename "out" "pkg.mod.py" ".source" := by
  decide

/-- C9: the final index is the accumulated entries sorted ascending by
(highest severity, negated error count); the overall highest severity is the
minimum over all entries, or the sentinel 4 when no file had errors (an
empty run still produces an index). -/
theorem C9_write_index_sorted_and_sentinel (files : List IndexEntry) :
    ((write_index files).1.Pairwise (fun d e =>
        d.highest_sev < e.highest_sev ∨
          (d.highest_sev = e.highest_sev ∧ e.error_count ≤ d.error_count))) ∧
    (write_index files).1.Perm files ∧
    (files = [] → write_index files = ([], 4)) ∧
    (files ≠ [] →
      (write_index files).2 ∈ files.map (fun e => e.highest_sev) ∧
      ∀ e ∈ files, (write_index files).2 ≤ e.highest_sev) := by
  refine ⟨?_, ?_, ?_, ?_⟩
  · have hs := List.sorted_mergeSort idxLE_trans idxLE_total files
    refine hs.imp ?_
    intro d e hde
    simpa [idxLE, Bool.or_eq_true, Bool.and_eq_true, decide_eq_true_eq] using hde
  · exact List.mergeSort_perm files idxLE
  · intro h; subst h; simp [write_index]
  · intro h
    obtain ⟨f, fl, rfl⟩ := List.exists_cons_of_ne_nil h
    have h2 : (write_index (f :: fl)).2 =
        pyMin ((f :: fl).map (fun e => e.highest_sev)) := by
      simp [write_index]
    constructor
    · rw [h2]
      exact pyMin_mem (by simp)
    · intro e he
      rw [h2]
      exact pyMin_le (by simp) e.highest_sev (List.mem_map_of_mem _ he)

/-- C9 witness: on a concrete two-entry index the overall highest severity
is one of the entries' severities, with the non-empty hypothesis discharged
concretely. -/
theorem C9_witness :
    (write_index [⟨"b.py", "b.report.html", 5, 1⟩,
        ⟨"a.py", "a.report.html", 2, 2⟩]).2 ∈
      ([⟨"b.py", "b.report.html", 5, 1⟩,
        (⟨"a.py", "a.report.html", 2, 2⟩ : IndexEntry)].map (fun e => e.highest_sev)) :=
  ((C9_write_index_sorted_and_sentinel [⟨"b.py", "b.report.html", 5, 1⟩,
    ⟨"a.py", "a.report.html", 2, 2⟩]).2.2.2 (by decide)).1

/-- C5: exactly one IndexEntry is appended to the run-level index iff the
file finished with a non-empty error sequence; for a clean file no entry is
emitted and both artifact filenames are deleted idempotently — the outcome
(neither artifact present afterwards) is the same whether or not they
existed, being a function of the prior filesystem contents only. -/
theorem C5_entry_iff_dirty_and_idempotent_cleanup (outdir filename : String)
    (st : FileState) (files : List IndexEntry) (fs : List String) :
    ((∃ e, (finished outdir st files fs filename).files = files ++ [e]) ↔
      st.errors ≠ []) ∧
    (st.errors = [] →
      (finished outdir st files fs filename).files = files ∧
      (finished outdir st files fs filename).entry = none ∧
      (finished outdir st files fs filename).fs =
        (fs.filter (fun p =>
          decide (p ≠ get_report_filename outdir filename ".report"))).filter (fun p =>
          decide (p ≠ get_report_filename outdir filename ".source")) ∧
      get_report_filename outdir filename ".report" ∉
        (finished outdir st files fs filename).fs ∧
      get_report_filename outdir filename ".source" ∉
        (finished outdir st files fs filename).fs) ∧
    (st.errors ≠ [] → (finished outdir st files fs filename).entry ≠ none) := by
  by_cases h : st.errors = []
  · rw [finished_clean outdir filename st files fs h]
    refine ⟨?_, ?_, ?_⟩
    · constructor
      · rintro ⟨e, he⟩
        have := congrArg List.length he
        simp at this
      · intro hne; exact absurd h hne
    · intro _
      refine ⟨rfl, rfl, rfl, ?_, ?_⟩
      · intro hmem
        rcases List.mem_filter.mp hmem with ⟨hmem1, _⟩
        rcases List.mem_filter.mp hmem1 with ⟨_, hp⟩
        rw [decide_eq_true_eq] at hp
        exact hp rfl
      · intro hmem
        rcases List.mem_filter.mp hmem with ⟨_, hp⟩
        rw [decide_eq_true_eq] at hp
        exact hp rfl
    · intro hne; exact absurd h hne
  · rw [finished_dirty outdir filename st files fs h]
    refine ⟨?_, ?_, ?_⟩
    · exact ⟨fun _ => h, fun _ => ⟨_, rfl⟩⟩
    · intro heq; exact absurd heq h
    · intro _; simp

/-- C5 witness: at a concrete clean file the cleanup result is reached and no
entry is emitted; the filesystem afterwards contains neither artifact. -/
theorem C5_witness :
    ((⟨[], []⟩ : FileState).errors = []) ∧
    (finished "out" ⟨[], []⟩ [] ["out/a.report.html", "out/a.source.html", "keep.txt"]
      "a.py").files = [] ∧
    "out/a.report.html" ∉
      (finished "out" ⟨[], []⟩ [] ["out/a.report.html", "out/a.source.html", "keep.txt"]
        "a.py").fs := by
  have h := C5_entry_iff_dirty_and_idempotent_cleanup "out" "a.py" ⟨[], []⟩ []
    ["out/a.report.html", "out/a.source.html", "keep.txt"]
  have h2 := h.2.1 rfl
  refine ⟨rfl, h2.1, ?_⟩
  have := h2.2.2.2.1
  simpa using this

/-- C6: the IndexEntry emitted for a dirty file carries exactly the
normalized filename, the report artifact's basename, the total number of
recorded errors, and the minimum severity value over all recorded
(error, severity) pairs. -/
theorem C6_entry_fields (outdir fn : String) (errs : List Error)
    (files : List IndexEntry) (fs : List String) (h : errs ≠ []) :
    ∃ e : IndexEntry,
      (finished outdir (runFile errs) files fs fn).entry = some e ∧
      e.filename = subLeadingDotSlash fn ∧
      e.report_name = basename (get_report_filename outdir fn ".report") ∧
      e.error_count = errs.length ∧
      e.highest_sev ∈ errs.map (fun x => find_severity x.code) ∧
      (∀ s ∈ errs.map (fun x => find_severity x.code), e.highest_sev ≤ s) := by
  have herrs : (runFile errs).errors ≠ [] := by
    rw [runFile_errors]
    cases errs with
    | nil => exact absurd rfl h
    | cons x xs => simp
  rw [finished_dirty outdir fn (runFile errs) files fs herrs]
  have hmap : (runFile errs).errors.map (fun es => es.2) =
      errs.map (fun x => find_severity x.code) := by
    rw [runFile_errors, List.map_map]
    rfl
  have hnemap : errs.map (fun x => find_severity x.code) ≠ [] := by
    cases errs with
    | nil => exact absurd rfl h
    | cons x xs => simp
  refine ⟨_, rfl, rfl, rfl, ?_, ?_, ?_⟩
  · rw [runFile_errors, List.length_map]
  · rw [hmap]
    exact pyMin_mem hnemap
  · intro s hs
    rw [hmap]
    exact pyMin_le hnemap s hs

/-- C6 witness: a concrete dirty file (two E501 at severity 2, one F401 at
severity 1) yields an entry with count 3 and highest severity 1. -/
theorem C6_witness :
    ([⟨"E501", "long", 2⟩, ⟨"F401", "unused", 5⟩, ⟨"E501", "long", 9⟩] : List Error) ≠ [] ∧
    ∃ e : IndexEntry,
      (finished "out" (runFile [⟨"E501", "long", 2⟩, ⟨"F401", "unused", 5⟩,
          ⟨"E501", "long", 9⟩]) [] [] "./m.py").entry = some e ∧
      e.filename = subLeadingDotSlash "./m.py" ∧
      e.report_name = basename (get_report_filename "out" "./m.py" ".report") ∧
      e.error_count = [⟨"E501", "long", 2⟩, ⟨"F401", "unused", 5⟩,
        (⟨"E501", "long", 9⟩ : Error)].length ∧
      e.highest_sev ∈ [⟨"E501", "long", 2⟩, ⟨"F401", "unused", 5⟩,
        (⟨"E501", "long", 9⟩ : Error)].map (fun x => find_severity x.code) ∧
      (∀ s ∈ [⟨"E501", "long", 2⟩, ⟨"F401", "unused", 5⟩,
          (⟨"E501", "long", 9⟩ : Error)].map (fun x => find_severity x.code),
        e.highest_sev ≤ s) :=
  ⟨by decide, C6_entry_fields "out" "./m.py"
    [⟨"E501", "long", 2⟩, ⟨"F401", "unused", 5⟩, ⟨"E501", "long", 9⟩] [] [] (by decide)⟩

/-- C7: the displayed/indexed name is the source path with one leading "./"
stripped, while the unmodified original path string is the one opened for
reading the source bytes. -/
theorem C7_display_stripped_open_original (outdir fn : String) (errs : List Error)
    (files : List IndexEntry) (fs : List String) (h : errs ≠ []) :
    (finished outdir (runFile errs) files fs fn).opened = some fn ∧
    (finished outdir (runFile errs) files fs fn).displayed =
      some (subLeadingDotSlash fn) ∧
    (startswith fn "./" = true → subLeadingDotSlash fn = ⟨fn.data.drop 2⟩) ∧
    (startswith fn "./" = false → subLeadingDotSlash fn = fn) ∧
    (∀ e, (finished outdir (runFile errs) files fs fn).entry = some e →
      e.filename = subLeadingDotSlash fn) := by
  have herrs : (runFile errs).errors ≠ [] := by
    rw [runFile_errors]
    cases errs with
    | nil => exact absurd rfl h
    | cons x xs => simp
  rw [finished_dirty outdir fn (runFile errs) files fs herrs]
  refine ⟨rfl, rfl, ?_, ?_, ?_⟩
  · intro hs; rw [subLeadingDotSlash, if_pos hs]
  · intro hs; rw [subLeadingDotSlash, if_neg (by simp [hs])]
  · intro e he
    injection he with he
    rw [← he]

/-- C7 witness: for the concrete input "./pkg/mod.py" the displayed name is
"pkg/mod.py" while "./pkg/mod.py" is the path that is opened. -/
theorem C7_witness :
    ([⟨"F401", "unused", 3⟩] : List Error) ≠ [] ∧
    (finished "out" (runFile [⟨"F401", "unused", 3⟩]) [] [] "./pkg/mod.py").opened =
      some "./pkg/mod.py" ∧
    (finished "out" (runFile [⟨"F401", "unused", 3⟩]) [] [] "./pkg/mod.py").displayed =
      some "pkg/mod.py" := by
  have h := C7_display_stripped_open_original "out" "./pkg/mod.py"
    [⟨"F401", "unused", 3⟩] [] [] (by decide)
  refine ⟨by decide, h.1, ?_⟩
  rw [h.2.1]
  decide

/-- Rows built from the `by_code` items carry pairwise-distinct codes. -/
theorem buildFileIndex_codes_distinct (errs : List Error) :
    (buildFileIndex (runFile errs).by_code).Pairwise (fun r s => r.code ≠ s.code) := by
  have hnodup := nodup_keys_runFile_by_code errs
  have hmapped : ((runFile errs).by_code.map (fun kv => buildRow kv.1 kv.2)).Pairwise
      (fun r s => r.code ≠ s.code) := by
    rw [List.pairwise_map]
    have := List.pairwise_map.mp hnodup
    exact this.imp (fun h => h)
  have hperm := List.mergeSort_perm
    ((runFile errs).by_code.map (fun kv => buildRow kv.1 kv.2)) rowLE
  rw [buildFileIndex]
  exact (hperm.pairwise_iff (fun h => h.symm)).mpr hmapped

/-- C2: the per-file code-summary rows are sorted by the exact tuple
(severity ascending, occurrence count descending, code ascending
lexicographically): any earlier row has strictly smaller severity, or equal
severity and strictly more occurrences, or equal severity and count and a
lexicographically strictly smaller code. -/
theorem C2_code_summary_rows_sorted (errs : List Error) :
    (buildFileIndex (runFile errs).by_code).Pairwise (fun r s =>
      r.sev < s.sev ∨
        (r.sev = s.sev ∧ (s.count < r.count ∨
          (r.count = s.count ∧ listLE r.code.data s.code.data ∧ r.code ≠ s.code)))) := by
  have hsorted : (buildFileIndex (runFile errs).by_code).Pairwise
      (fun r s => rowLE r s = true) := by
    rw [buildFileIndex]
    exact List.sorted_mergeSort rowLE_trans rowLE_total _
  have hdistinct := buildFileIndex_codes_distinct errs
  refine (hsorted.and hdistinct).imp ?_
  intro r s ⟨hle, hne⟩
  simp only [rowLE, Bool.or_eq_true, Bool.and_eq_true, decide_eq_true_eq] at hle
  rcases hle with h | ⟨h1, h2 | ⟨h2, h3⟩⟩
  · exact Or.inl h
  · exact Or.inr ⟨h1, Or.inl h2⟩
  · exact Or.inr ⟨h1, Or.inr ⟨h2, h3, hne⟩⟩

/-- C4: each line with at least one recorded error maps to the minimum
severity among that line's errors, and to its full (error, severity) list in
arrival order; lines with no errors are absent from both maps. -/
theorem C4_line_severity_maps (errs : List Error) (line : Nat) :
    (dictGet (buildByLine (runFile errs).errors) line =
      if (lineOccurrences errs line).isEmpty then none
      else some (lineOccurrences errs line)) ∧
    (lineOccurrences errs line = [] →
      dictGet (buildLineSevs (buildByLine (runFile errs).errors)) line = none) ∧
    (lineOccurrences errs line ≠ [] →
      ∃ m, dictGet (buildLineSevs (buildByLine (runFile errs).errors)) line = some m ∧
        m ∈ (lineOccurrences errs line).map (fun es => es.2) ∧
        ∀ s ∈ (lineOccurrences errs line).map (fun es => es.2), m ≤ s) := by
  have hbl : dictGet (buildByLine (runFile errs).errors) line =
      if (lineOccurrences errs line).isEmpty then none
      else some (lineOccurrences errs line) := by
    rw [by_line_spec, runFile_errors]
    rfl
  have hls : dictGet (buildLineSevs (buildByLine (runFile errs).errors)) line =
      (dictGet (buildByLine (runFile errs).errors) line).map
        (fun errsOnLine => pyMin (errsOnLine.map (fun es => es.2))) := by
    rw [buildLineSevs]
    exact dictGet_map_value (fun errsOnLine => pyMin (errsOnLine.map (fun es => es.2)))
      (buildByLine (runFile errs).errors) line
  refine ⟨hbl, ?_, ?_⟩
  · intro hempty
    rw [hls, hbl, hempty]
    rfl
  · intro hne
    have hie : (lineOccurrences errs line).isEmpty = false := by
      cases hlo : lineOccurrences errs line with
      | nil => exact absurd hlo hne
      | cons x xs => rfl
    have hmapne : (lineOccurrences errs line).map (fun es => es.2) ≠ [] := by
      cases hlo : lineOccurrences errs line with
      | nil => exact absurd hlo hne
      | cons x xs => simp
    refine ⟨pyMin ((lineOccurrences errs line).map (fun es => es.2)), ?_, ?_, ?_⟩
    · rw [hls, hbl, hie]
      rfl
    · exact pyMin_mem hmapne
    · intro s hs
      exact pyMin_le hmapne s hs

/-- C4 witness: at a concrete input with two errors on line 3, the line maps
to its two pairs and to minimum severity; line 9 (no errors) is absent. -/
theorem C4_witness :
    (lineOccurrences [⟨"E501", "a", 3⟩, ⟨"F401", "b", 3⟩, ⟨"D100", "c", 7⟩] 3 ≠ []) ∧
    (∃ m, dictGet (buildLineSevs (buildByLine
        (runFile [⟨"E501", "a", 3⟩, ⟨"F401", "b", 3⟩, ⟨"D100", "c", 7⟩]).errors)) 3 =
          some m ∧
      m ∈ (lineOccurrences [⟨"E501", "a", 3⟩, ⟨"F401", "b", 3⟩,
        ⟨"D100", "c", 7⟩] 3).map (fun es => es.2) ∧
      ∀ s ∈ (lineOccurrences [⟨"E501", "a", 3⟩, ⟨"F401", "b", 3⟩,
        ⟨"D100", "c", 7⟩] 3).map (fun es => es.2), m ≤ s) :=
  ⟨by decide,
    (C4_line_severity_maps [⟨"E501", "a", 3⟩, ⟨"F401", "b", 3⟩, ⟨"D100", "c", 7⟩] 3).2.2
      (by decide)⟩

/-- C3: for every code with at least one occurrence, the per-file index has
exactly one row for it, carrying: the occurrence count; the message and line
of the first minimal-line occurrence; the number of distinct messages; and
the (line, message) pairs sorted ascending by (line, message). -/
theorem C3_code_summary_row_fields (errs : List Error) (c : String)
    (h : codeOccurrences errs c ≠ []) :
    ∃ r ∈ buildFileIndex (runFile errs).by_code,
      r.code = c ∧
      r.sev = find_severity c ∧
      r.count = (codeOccurrences errs c).length ∧
      (∀ x ∈ codeOccurrences errs c, r.line_number ≤ x.line_number) ∧
      (∃ rep, (codeOccurrences errs c).find?
          (fun x => decide (x.line_number = r.line_number)) = some rep ∧
        r.text = rep.text ∧ r.line_number = rep.line_number) ∧
      r.unique_messages =
        ((codeOccurrences errs c).map (fun e => e.text)).toFinset.card ∧
      r.errs.Perm ((codeOccurrences errs c).map (fun e => (e.line_number, e.text))) ∧
      r.errs.Pairwise (fun p q => p.1 < q.1 ∨ (p.1 = q.1 ∧ listLE p.2.data q.2.data)) ∧
      (∀ r' ∈ buildFileIndex (runFile errs).by_code, r'.code = c → r' = r) := by
  have hie : (errs.filter (fun e => decide (e.code = c))).isEmpty = false := by
    cases hg : errs.filter (fun e => decide (e.code = c)) with
    | nil => exact absurd hg h
    | cons x xs => rfl
  have hget : dictGet (runFile errs).by_code c = some (codeOccurrences errs c) := by
    rw [by_code_spec, hie]
    rfl
  have hmem : (c, codeOccurrences errs c) ∈ (runFile errs).by_code :=
    mem_of_dictGet_eq_some hget
  refine ⟨buildRow c (codeOccurrences errs c), ?_, rfl, rfl, rfl, ?_, ?_, ?_, ?_, ?_, ?_⟩
  · rw [buildFileIndex, List.mem_mergeSort]
    exact List.mem_map_of_mem (fun kv => buildRow kv.1 kv.2) hmem
  · intro x hx
    exact minByLine_le h x hx
  · exact ⟨minByLine (codeOccurrences errs c), minByLine_find h, rfl, rfl⟩
  · exact (List.card_toFinset _).symm
  · exact List.mergeSort_perm _ pairLE
  · have hs := List.sorted_mergeSort pairLE_trans pairLE_total
      ((codeOccurrences errs c).map (fun e => (e.line_number, e.text)))
    refine hs.imp ?_
    intro p q hpq
    simpa [pairLE, Bool.or_eq_true, Bool.and_eq_true, decide_eq_true_eq] using hpq
  · intro r' hr' hc
    rw [buildFileIndex, List.mem_mergeSort] at hr'
    obtain ⟨kv, hkv, hrkv⟩ := List.mem_map.mp hr'
    have hkey : kv.1 = c := by rw [← hc, ← hrkv]; rfl
    have hval : kv.2 = codeOccurrences errs c := by
      have hget' : dictGet (runFile errs).by_code kv.1 = some kv.2 :=
        dictGet_eq_some_of_mem (nodup_keys_runFile_by_code errs)
          (by rw [← Prod.mk.eta (p := kv)] at hkv; exact hkv)
      rw [hkey] at hget'
      rw [hget] at hget'
      exact (Option.some.injEq _ _ ▸ hget').symm
    rw [← hrkv, hkey, hval]

/-- C3 witness: for a concrete file with three E501 occurrences (minimal
line 3 reached twice, "bb" arriving first), the E501 row exists with the
stated fields. -/
theorem C3_witness :
    (codeOccurrences [⟨"E501", "aa", 7⟩, ⟨"E501", "bb", 3⟩, ⟨"E501", "aa", 3⟩,
        ⟨"F401", "u", 5⟩] "E501" ≠ []) ∧
    (∃ r ∈ buildFileIndex (runFile [⟨"E501", "aa", 7⟩, ⟨"E501", "bb", 3⟩,
        ⟨"E501", "aa", 3⟩, ⟨"F401", "u", 5⟩]).by_code,
      r.code = "E501" ∧
      r.sev = find_severity "E501" ∧
      r.count = (codeOccurrences [⟨"E501", "aa", 7⟩, ⟨"E501", "bb", 3⟩,
        ⟨"E501", "aa", 3⟩, ⟨"F401", "u", 5⟩] "E501").length ∧
      (∀ x ∈ codeOccurrences [⟨"E501", "aa", 7⟩, ⟨"E501", "bb", 3⟩,
        ⟨"E501", "aa", 3⟩, ⟨"F401", "u", 5⟩] "E501",
        r.line_number ≤ x.line_number) ∧
      (∃ rep, (codeOccurrences [⟨"E501", "aa", 7⟩, ⟨"E501", "bb", 3⟩,
          ⟨"E501", "aa", 3⟩, ⟨"F401", "u", 5⟩] "E501").find?
          (fun x => decide (x.line_number = r.line_number)) = some rep ∧
        r.text = rep.text ∧ r.line_number = rep.line_number) ∧
      r.unique_messages = ((codeOccurrences [⟨"E501", "aa", 7⟩, ⟨"E501", "bb", 3⟩,
        ⟨"E501", "aa", 3⟩, ⟨"F401", "u", 5⟩] "E501").map
          (fun e => e.text)).toFinset.card ∧
      r.errs.Perm ((codeOccurrences [⟨"E501", "aa", 7⟩, ⟨"E501", "bb", 3⟩,
        ⟨"E501", "aa", 3⟩, ⟨"F401", "u", 5⟩] "E501").map
          (fun e => (e.line_number, e.text))) ∧
      r.errs.Pairwise (fun p q => p.1 < q.1 ∨ (p.1 = q.1 ∧ listLE p.2.data q.2.data)) ∧
      (∀ r' ∈ buildFileIndex (runFile [⟨"E501", "aa", 7⟩, ⟨"E501", "bb", 3⟩,
        ⟨"E501", "aa", 3⟩, ⟨"F401", "u", 5⟩]).by_code,
        r'.code = "E501" → r' = r)) :=
  ⟨by decide, C3_code_summary_row_fields
    [⟨"E501", "aa", 7⟩, ⟨"E501", "bb", 3⟩, ⟨"E501", "aa", 3⟩, ⟨"F401", "u", 5⟩]
    "E501" (by decide)⟩

theorem dictGet_incCounter {κ : Type} [DecidableEq κ]
    (m : List (κ × Nat)) (k k' : κ) :
    dictGet (incCounter m k) k' =
      if k' = k then some ((dictGet m k).getD 0 + 1) else dictGet m k' := by
  induction m with
  | nil =>
    by_cases h : k' = k
    · subst h; simp [incCounter, dictGet]
    · simp [incCounter, dictGet, h, Ne.symm h]
  | cons a rest ih =>
    obtain ⟨k₀, v₀⟩ := a
    by_cases h1 : k₀ = k
    · subst h1
      by_cases h2 : k' = k₀
      · subst h2; simp [incCounter, dictGet]
      · simp [incCounter, dictGet, h2, Ne.symm h2]
    · by_cases h3 : k₀ = k'
      · subst h3
        simp [incCounter, dictGet, h1, Ne.symm h1, ih]
      · simp [incCounter, dictGet, h1, h3, ih]

theorem incCounter_fold_getD {β κ : Type} [DecidableEq κ]
    (g : β → κ) (xs : List β) :
    ∀ (m : List (κ × Nat)) (k : κ),
      (dictGet (xs.foldl (fun m x => incCounter m (g x)) m) k).getD 0 =
        (dictGet m k).getD 0 + xs.countP (fun x => decide (g x = k)) := by
  induction xs with
  | nil => simp
  | cons x xs ih =>
    intro m k
    simp only [List.foldl_cons, List.countP_cons]
    rw [ih]
    by_cases h : g x = k
    · simp [dictGet_incCounter, h]
      omega
    · simp [dictGet_incCounter, h, Ne.symm h]

theorem incCounter_fold_isSome {β κ : Type} [DecidableEq κ]
    (g : β → κ) (xs : List β) :
    ∀ (m : List (κ × Nat)) (k : κ),
      (dictGet (xs.foldl (fun m x => incCounter m (g x)) m) k).isSome =
        ((dictGet m k).isSome || xs.any (fun x => decide (g x = k))) := by
  induction xs with
  | nil => simp
  | cons x xs ih =>
    intro m k
    simp only [List.foldl_cons, List.any_cons]
    rw [ih]
    by_cases h : g x = k
    · simp [dictGet_incCounter, h]
    · simp [dictGet_incCounter, h, Ne.symm h]

theorem incCounter_fold_get {β κ : Type} [DecidableEq κ]
    (g : β → κ) (xs : List β) (k : κ) :
    dictGet (xs.foldl (fun m x => incCounter m (g x)) []) k =
      if xs.any (fun x => decide (g x = k)) then
        some (xs.countP (fun x => decide (g x = k)))
      else none := by
  have hg := incCounter_fold_getD g xs [] k
  have hs := incCounter_fold_isSome g xs [] k
  simp only [dictGet, Option.getD_none, Nat.zero_add, Option.isSome_none,
    Bool.false_or] at hg hs
  rcases hdg : dictGet (xs.foldl (fun m x => incCounter m (g x)) []) k with _ | w
  · rw [hdg] at hs
    simp only [Option.isSome_none] at hs
    rw [← hs]
    rfl
  · rw [hdg] at hg hs
    simp only [Option.isSome_some, Option.getD_some] at hg hs
    rw [← hs, if_pos rfl, hg]

theorem keys_incCounter {κ : Type} [DecidableEq κ] (m : List (κ × Nat)) (k : κ) :
    (incCounter m k).map Prod.fst =
      if k ∈ m.map Prod.fst then m.map Prod.fst else m.map Prod.fst ++ [k] := by
  induction m with
  | nil => simp [incCounter]
  | cons a rest ih =>
    obtain ⟨k₀, v₀⟩ := a
    by_cases h : k₀ = k
    · subst h; simp [incCounter]
    · simp only [incCounter, if_neg h, List.map_cons, List.mem_cons]
      rw [ih]
      by_cases hm : k ∈ rest.map Prod.fst
      · simp [hm, Ne.symm h]
      · simp [hm, Ne.symm h]

theorem nodup_keys_incCounter {κ : Type} [DecidableEq κ]
    {m : List (κ × Nat)} (h : (m.map Prod.fst).Nodup) (k : κ) :
    ((incCounter m k).map Prod.fst).Nodup := by
  rw [keys_incCounter]
  by_cases hm : k ∈ m.map Prod.fst
  · simpa [hm] using h
  · rw [if_neg hm]
    rw [List.nodup_append]
    exact ⟨h, List.nodup_singleton k, by simpa using hm⟩

theorem nodup_keys_incCounter_fold {β κ : Type} [DecidableEq κ]
    (g : β → κ) (xs : List β) :
    ∀ m : List (κ × Nat), (m.map Prod.fst).Nodup →
      ((xs.foldl (fun m x => incCounter m (g x)) m).map Prod.fst).Nodup := by
  induction xs with
  | nil => intro m h; simpa using h
  | cons x xs ih =>
    intro m h
    exact ih _ (nodup_keys_incCounter h (g x))

theorem mem_keys_iff_isSome {κ ν : Type} [DecidableEq κ]
    (m : List (κ × ν)) (k : κ) :
    k ∈ m.map Prod.fst ↔ (dictGet m k).isSome := by
  induction m with
  | nil => simp [dictGet]
  | cons a rest ih =>
    obtain ⟨k₀, v₀⟩ := a
    by_cases h : k₀ = k
    · subst h; simp [dictGet]
    · simp [dictGet, h, Ne.symm h, ih]

/-- Two lists of pairs that are both strictly sorted on the first component
and have the same members are equal. -/
theorem eq_of_pairwise_fst_lt_mem :
    ∀ l₁ l₂ : List (Nat × Nat), l₁.Pairwise (fun p q => p.1 < q.1) →
      l₂.Pairwise (fun p q => p.1 < q.1) → (∀ p, p ∈ l₁ ↔ p ∈ l₂) → l₁ = l₂ := by
  intro l₁
  induction l₁ with
  | nil =>
    intro l₂ _ _ hmem
    cases l₂ with
    | nil => rfl
    | cons b t₂ => exact absurd ((hmem b).mpr (List.mem_cons_self b t₂)) (List.not_mem_nil b)
  | cons a t₁ ih =>
    intro l₂ h₁ h₂ hmem
    cases l₂ with
    | nil => exact absurd ((hmem a).mp (List.mem_cons_self a t₁)) (List.not_mem_nil a)
    | cons b t₂ =>
      have hab : a = b := by
        rcases List.mem_cons.mp ((hmem a).mp (List.mem_cons_self a t₁)) with h | h
        · exact h
        · rcases List.mem_cons.mp ((hmem b).mpr (List.mem_cons_self b t₂)) with h' | h'
          · exact h'.symm
          · have hba := (List.pairwise_cons.mp h₂).1 a h
            have hab := (List.pairwise_cons.mp h₁).1 b h'
            omega
      subst hab
      have htail : ∀ p, p ∈ t₁ ↔ p ∈ t₂ := by
        intro p
        constructor
        · intro hp
          rcases List.mem_cons.mp ((hmem p).mp (List.mem_cons_of_mem a hp)) with h | h
          · subst h
            have := (List.pairwise_cons.mp h₁).1 p hp
            omega
          · exact h
        · intro hp
          rcases List.mem_cons.mp ((hmem p).mpr (List.mem_cons_of_mem a hp)) with h | h
          · subst h
            have := (List.pairwise_cons.mp h₂).1 p hp
            omega
          · exact h
      rw [ih t₂ (List.pairwise_cons.mp h₁).2 (List.pairwise_cons.mp h₂).2 htail]

/-- The keys of `by_code` are a permutation of the distinct codes of the
input, so counting over either is the same. -/
theorem keys_by_code_perm_dedup (errs : List Error) :
    ((runFile errs).by_code.map Prod.fst).Perm ((errs.map (fun e => e.code)).dedup) := by
  refine (List.perm_ext_iff_of_nodup (nodup_keys_runFile_by_code errs)
    (List.nodup_dedup _)).mpr ?_
  intro c
  rw [List.mem_dedup, mem_keys_iff_isSome, by_code_spec]
  constructor
  · intro h
    by_cases hie : (errs.filter (fun e => decide (e.code = c))).isEmpty = true
    · rw [if_pos hie] at h; simp at h
    · have hne : errs.filter (fun e => decide (e.code = c)) ≠ [] := by
        intro hnil; rw [hnil] at hie; exact hie rfl
      obtain ⟨e, he⟩ := List.exists_mem_of_ne_nil _ hne
      have hef := List.mem_filter.mp he
      exact List.mem_map.mpr ⟨e, hef.1, by simpa using hef.2⟩
  · intro h
    obtain ⟨e, he, hc⟩ := List.mem_map.mp h
    have hmem : e ∈ errs.filter (fun e => decide (e.code = c)) :=
      List.mem_filter.mpr ⟨he, by simpa using hc⟩
    have hie : (errs.filter (fun e => decide (e.code = c))).isEmpty = false := by
      cases hf : errs.filter (fun e => decide (e.code = c)) with
      | nil => rw [hf] at hmem; exact absurd hmem (List.not_mem_nil e)
      | cons x xs => rfl
    rw [hie]
    rfl

theorem bc_count_eq_dedup_count (errs : List Error) (s : Nat) :
    (runFile errs).by_code.countP (fun kv => decide (find_severity kv.1 = s)) =
      ((errs.map (fun e => e.code)).dedup.filter
        (fun c => decide (find_severity c = s))).length := by
  have h1 : (runFile errs).by_code.countP (fun kv => decide (find_severity kv.1 = s)) =
      ((runFile errs).by_code.map Prod.fst).countP
        (fun c => decide (find_severity c = s)) := by
    rw [List.countP_map]
    rfl
  rw [h1, (keys_by_code_perm_dedup errs).countP_eq, List.countP_eq_length_filter]

theorem bc_any_iff_dedup_mem (errs : List Error) (s : Nat) :
    (runFile errs).by_code.any (fun kv => decide (find_severity kv.1 = s)) = true ↔
      ∃ c ∈ (errs.map (fun e => e.code)).dedup, find_severity c = s := by
  rw [List.any_eq_true]
  constructor
  · rintro ⟨kv, hkv, hq⟩
    refine ⟨kv.1, (keys_by_code_perm_dedup errs).mem_iff.mp
      (List.mem_map.mpr ⟨kv, hkv, rfl⟩), by simpa using hq⟩
  · rintro ⟨c, hc, hq⟩
    obtain ⟨kv, hkv, hfst⟩ :=
      List.mem_map.mp ((keys_by_code_perm_dedup errs).mem_iff.mpr hc)
    exact ⟨kv, hkv, by simp [hfst, hq]⟩

theorem mem_buildCounts (bc : List (String × List Error)) (p : Nat × Nat) :
    p ∈ buildCounts bc ↔
      (bc.any (fun kv => decide (find_severity kv.1 = p.1)) = true ∧
        p.2 = bc.countP (fun kv => decide (find_severity kv.1 = p.1))) := by
  have hnodup : ((buildCounts bc).map Prod.fst).Nodup := by
    rw [buildCounts]
    exact nodup_keys_incCounter_fold
      (fun kv : String × List Error => find_severity kv.1) bc [] (by simp)
  constructor
  · intro hp
    have hget : dictGet (buildCounts bc) p.1 = some p.2 :=
      dictGet_eq_some_of_mem hnodup (by rw [Prod.mk.eta]; exact hp)
    rw [buildCounts, incCounter_fold_get] at hget
    by_cases hany : bc.any (fun kv => decide (find_severity kv.1 = p.1)) = true
    · rw [if_pos hany] at hget
      injection hget with hget
      exact ⟨hany, hget.symm⟩
    · rw [if_neg hany] at hget
      exact absurd hget (by simp)
  · rintro ⟨hany, hcount⟩
    have hget : dictGet (buildCounts bc) p.1 =
        some (bc.countP (fun kv => decide (find_severity kv.1 = p.1))) := by
      rw [buildCounts, incCounter_fold_get, if_pos hany]
    have hmem := mem_of_dictGet_eq_some hget
    rw [← hcount, Prod.mk.eta] at hmem
    exact hmem

/-- `sorted(counts.items())` equals the canonical ascending list that maps
each present severity to its number of distinct codes. -/
theorem sorted_counts_eq (errs : List Error) :
    (buildCounts (runFile errs).by_code).mergeSort countLE =
      ([1, 2, 3].filter (fun s =>
          !((errs.map (fun e => e.code)).dedup.filter
            (fun c => decide (find_severity c = s))).isEmpty)).map
        (fun s => (s, ((errs.map (fun e => e.code)).dedup.filter
            (fun c => decide (find_severity c = s))).length)) := by
  have hnodup : ((buildCounts (runFile errs).by_code).map Prod.fst).Nodup := by
    rw [buildCounts]
    exact nodup_keys_incCounter_fold
      (fun kv : String × List Error => find_severity kv.1) _ [] (by simp)
  apply eq_of_pairwise_fst_lt_mem
  · have hsorted := List.sorted_mergeSort countLE_trans countLE_total
      (buildCounts (runFile errs).by_code)
    have hperm := List.mergeSort_perm (buildCounts (runFile errs).by_code) countLE
    have hne : ((buildCounts (runFile errs).by_code).mergeSort countLE).Pairwise
        (fun p q : Nat × Nat => p.1 ≠ q.1) := by
      have h0 : (buildCounts (runFile errs).by_code).Pairwise
          (fun p q : Nat × Nat => p.1 ≠ q.1) := List.pairwise_map.mp hnodup
      exact (hperm.pairwise_iff (fun h => h.symm)).mpr h0
    refine (hsorted.and hne).imp ?_
    intro p q hpq
    obtain ⟨hle, hnepq⟩ := hpq
    simp only [countLE, Bool.or_eq_true, Bool.and_eq_true, decide_eq_true_eq] at hle
    rcases hle with h | ⟨h1, _⟩
    · exact h
    · exact absurd h1 hnepq
  · rw [List.pairwise_map]
    have h123 : ([1, 2, 3] : List Nat).Pairwise (· < ·) := by decide
    exact List.Pairwise.sublist (List.filter_sublist _) h123
  · intro p
    rw [List.mem_mergeSort, mem_buildCounts]
    constructor
    · rintro ⟨hany, hcount⟩
      obtain ⟨c, hc, hsev⟩ := (bc_any_iff_dedup_mem errs p.1).mp hany
      have hmemc : c ∈ (errs.map (fun e => e.code)).dedup.filter
          (fun c => decide (find_severity c = p.1)) :=
        List.mem_filter.mpr ⟨hc, by simpa using hsev⟩
      have hpres : (!((errs.map (fun e => e.code)).dedup.filter
          (fun c => decide (find_severity c = p.1))).isEmpty) = true := by
        cases hf : (errs.map (fun e => e.code)).dedup.filter
            (fun c => decide (find_severity c = p.1)) with
        | nil => rw [hf] at hmemc; exact absurd hmemc (List.not_mem_nil c)
        | cons x xs => rfl
      have hp1 : p.1 ∈ ([1, 2, 3] : List Nat) := by
        rcases find_severity_total c with h | h | h <;>
          · rw [h] at hsev; rw [← hsev]; simp
      refine List.mem_map.mpr ⟨p.1, List.mem_filter.mpr ⟨hp1, hpres⟩, ?_⟩
      rw [← bc_count_eq_dedup_count errs p.1, ← hcount, Prod.mk.eta]
    · intro hmem
      obtain ⟨s, hs, hsp⟩ := List.mem_map.mp hmem
      obtain ⟨_, hpres⟩ := List.mem_filter.mp hs
      have hne : (errs.map (fun e => e.code)).dedup.filter
          (fun c => decide (find_severity c = s)) ≠ [] := by
        intro hnil
        rw [hnil] at hpres
        exact absurd hpres (by simp)
      obtain ⟨c, hc⟩ := List.exists_mem_of_ne_nil _ hne
      have hcf := List.mem_filter.mp hc
      have hany : (runFile errs).by_code.any
          (fun kv => decide (find_severity kv.1 = s)) = true :=
        (bc_any_iff_dedup_mem errs s).mpr ⟨c, hcf.1, by simpa using hcf.2⟩
      have hp1 : p.1 = s := by rw [← hsp]
      have hp2 : p.2 = ((errs.map (fun e => e.code)).dedup.filter
          (fun c => decide (find_severity c = s))).length := by rw [← hsp]
      subst hp1
      exact ⟨hany, by rw [hp2, bc_count_eq_dedup_count]⟩

/-- C10: the per-dirty-file progress line reports, per severity present and
in ascending order under the names high/medium/low, the number of distinct
error codes at that severity (not the number of occurrences); e.g. three
E501 and one E201 (all severity 2) report just "medium: 2". -/
theorem C10_progress_counts_distinct_codes (errs : List Error) :
    buildScores (runFile errs).by_code =
      ([1, 2, 3].filter (fun s =>
          !((errs.map (fun e => e.code)).dedup.filter
            (fun c => decide (find_severity c = s))).isEmpty)).map
        (fun s => severityName s ++ ": " ++
          toString ((errs.map (fun e => e.code)).dedup.filter
            (fun c => decide (find_severity c = s))).length) ∧
    severityName 1 = "high" ∧ severityName 2 = "medium" ∧ severityName 3 = "low" ∧
    buildScores (runFile [⟨"E501", "t1", 1⟩, ⟨"E501", "t2", 2⟩, ⟨"E501", "t3", 3⟩,
      ⟨"E201", "t4", 4⟩]).by_code = ["medium: 2"] := by
  have hmain : ∀ errs : List Error, buildScores (runFile errs).by_code =
      ([1, 2, 3].filter (fun s =>
          !((errs.map (fun e => e.code)).dedup.filter
            (fun c => decide (find_severity c = s))).isEmpty)).map
        (fun s => severityName s ++ ": " ++
          toString ((errs.map (fun e => e.code)).dedup.filter
            (fun c => decide (find_severity c = s))).length) := by
    intro errs
    rw [buildScores, sorted_counts_eq, List.map_map]
    rfl
  refine ⟨hmain errs, rfl, rfl, rfl, ?_⟩
  rw [hmain [⟨"E501", "t1", 1⟩, ⟨"E501", "t2", 2⟩, ⟨"E501", "t3", 3⟩,
    ⟨"E201", "t4", 4⟩]]
  decide

end Flake8Html
